import Mathlib

/-!
Shallow embedding of `simple_risc_assembler_with_modifiers.py`: a two-pass
assembler for a small RISC instruction set.  Bit strings are modelled as
`List Char` over the characters '0' and '1', mirroring the Python code's
manipulation of binary digit strings.  Python exceptions (out-of-range list
indexing, `int` on a bare minus sign) are modelled by an explicit `crash`
result; error messages printed by the code are modelled by `diag` results.
-/

/-- A parsed source line, as produced by `parse_line` and collected into
`processed_lines` in `assemble`: the source line index, an optional label,
an optional mnemonic and the operand tokens. -/
structure Entry where
  lineNum : Nat
  label : Option String
  mnemonic : Option String
  operands : List String
  deriving DecidableEq

/-- The opcode table `OPCODES` of the source: mnemonic to 5-bit opcode. -/
def OPCODES : List (String × List Char) := [
  ("add", "00000".data), ("sub", "00001".data), ("mul", "00010".data),
  ("div", "00011".data), ("mod", "00100".data),
  ("cmp", "00101".data), ("and", "00110".data), ("or", "00111".data),
  ("not", "01000".data), ("mov", "01001".data),
  ("addu", "00000".data), ("subu", "00001".data), ("mulu", "00010".data),
  ("divu", "00011".data), ("modu", "00100".data),
  ("cmpu", "00101".data), ("andu", "00110".data), ("oru", "00111".data),
  ("notu", "01000".data), ("movu", "01001".data),
  ("addh", "00000".data), ("subh", "00001".data), ("mulh", "00010".data),
  ("divh", "00011".data), ("modh", "00100".data),
  ("cmph", "00101".data), ("andh", "00110".data), ("orh", "00111".data),
  ("noth", "01000".data), ("movh", "01001".data),
  ("lsl", "01010".data), ("lsr", "01011".data), ("asr", "01100".data),
  ("nop", "01101".data), ("ld", "01110".data),
  ("st", "01111".data), ("beq", "10000".data), ("bgt", "10001".data),
  ("b", "10010".data), ("call", "10011".data),
  ("ret", "10100".data)]

/-- `OPCODES.get(mnemonic)` of the source. -/
def opLookup (m : String) : Option (List Char) :=
  (OPCODES.find? (fun p => decide (p.1 = m))).map (fun p => p.2)

/-- The set `MODIFIER_OPCODES` of the source. -/
def MODIFIER_OPCODES : List String :=
  ["addu", "subu", "mulu", "divu", "modu",
   "cmpu", "andu", "oru", "notu", "movu",
   "addh", "subh", "mulh", "divh", "modh",
   "cmph", "andh", "orh", "noth", "movh"]

/-- The register table `REGISTERS` of the source: name to 4-bit code. -/
def REGISTERS : List (String × List Char) := [
  ("r0", "0000".data), ("r1", "0001".data), ("r2", "0010".data),
  ("r3", "0011".data),
  ("r4", "0100".data), ("r5", "0101".data), ("r6", "0110".data),
  ("r7", "0111".data),
  ("r8", "1000".data), ("r9", "1001".data), ("r10", "1010".data),
  ("r11", "1011".data),
  ("r12", "1100".data), ("r13", "1101".data), ("r14", "1110".data),
  ("sp", "1110".data),
  ("r15", "1111".data), ("ra", "1111".data)]

/-- `REGISTERS` lookup without the default. -/
def regLookup (r : String) : Option (List Char) :=
  (REGISTERS.find? (fun p => decide (p.1 = r))).map (fun p => p.2)

/-- `REGISTERS.get(name, '0000')` of the source. -/
def regGet (r : String) : List Char :=
  (regLookup r).getD "0000".data

/-- Binary digits of `n`, most significant first (empty for 0); the
auxiliary fuel argument makes the recursion structural. -/
def bitsOfAux : Nat → Nat → List Char
  | 0, _ => []
  | fuel + 1, n =>
    if n = 0 then []
    else bitsOfAux fuel (n / 2) ++ [if n % 2 = 1 then '1' else '0']

/-- Binary digits of `n`, most significant first (empty for 0). -/
def bitsOf (n : Nat) : List Char := bitsOfAux n n

/-- Python `bin(n)[2:]` for a non-negative `n` (yields "0" for 0). -/
def pyBinNat (n : Nat) : List Char := if n = 0 then ['0'] else bitsOf n

/-- Python `bin(v)[2:]` on an arbitrary integer: for a negative argument
`bin` yields a string of the form `-0b...`, so slicing off two characters
leaves a leading 'b'. -/
def pyBin (v : Int) : List Char :=
  if v < 0 then 'b' :: bitsOf v.natAbs else pyBinNat v.toNat

/-- Python `str.zfill`: left-pad with '0' up to width `w` (never truncates;
none of the strings produced here start with a sign character). -/
def zfill (s : List Char) (w : Nat) : List Char :=
  List.replicate (w - s.length) '0' ++ s

/-- The `to_binary` helper of the source: two's-complement conversion of
negative values via `(1 << bits) + value`, then `bin(...)[2:].zfill(bits)`. -/
def to_binary (value : Int) (bits : Nat) (signed : Bool) : List Char :=
  if signed ∧ value < 0 then zfill (pyBin (2 ^ bits + value)) bits
  else zfill (pyBin value) bits

/-- Value of a bit string read as an unsigned binary numeral. -/
def binVal (cs : List Char) : Nat :=
  cs.foldl (fun a c => 2 * a + (if c = '1' then 1 else 0)) 0

/-- Value of a bit string read as a two's-complement signed numeral over
its own length. -/
def decodeTC (cs : List Char) : Int :=
  if 2 ^ (cs.length - 1) ≤ binVal cs then (binVal cs : Int) - 2 ^ cs.length
  else (binVal cs : Int)

/-- Python `s[-1]`, the last character of a (non-empty) string. -/
def lastCh (s : String) : Char := s.data.getLastD ' '

/-- Python `str.isdigit` (restricted to ASCII digits): non-empty and all
characters are digits. -/
def pyIsdigit (cs : List Char) : Bool := !cs.isEmpty && cs.all Char.isDigit

/-- The numeric-literal test of the source:
`op.isdigit() or (op.startswith('-') and op[1:].isdigit())`. -/
def isImmTok (s : String) : Bool :=
  pyIsdigit s.data ||
    (match s.data with
     | '-' :: rest => pyIsdigit rest
     | _ => false)

/-- Decimal value of a digit string. -/
def digitsVal (cs : List Char) : Nat :=
  cs.foldl (fun a c => 10 * a + (c.toNat - 48)) 0

/-- Python `int(...)` on tokens of the shape produced here (an optional
leading minus sign followed by decimal digits). -/
def pyIntL (cs : List Char) : Int :=
  match cs with
  | '-' :: rest => -(digitsVal rest : Int)
  | _ => (digitsVal cs : Int)

/-- Python `int(...)` on a string token. -/
def pyInt (s : String) : Int := pyIntL s.data

/-- The lazy `.*?\]` part of the memory-operand regex: the characters up to
the first ']' (failing on a newline, which '.' does not match, or if no ']'
is present). -/
def scanBracket : List Char → Option (List Char)
  | [] => none
  | c :: rest =>
    if c = ']' then some []
    else if c = '\n' then none
    else (scanBracket rest).map (fun t => c :: t)

/-- The memory-operand regex `re.match(r'(-?\d*)\[(.*?)\]', s)` of the
source: group 1 is an optional minus sign plus a (possibly empty) run of
digits, group 2 is the text up to the first ']'. -/
def memMatch (s : List Char) : Option (List Char × List Char) :=
  match s with
  | '-' :: r =>
    (match r.dropWhile Char.isDigit with
     | '[' :: r3 =>
       (scanBracket r3).map (fun inner => ('-' :: r.takeWhile Char.isDigit, inner))
     | _ => none)
  | _ =>
    (match s.dropWhile Char.isDigit with
     | '[' :: r3 =>
       (scanBracket r3).map (fun inner => (s.takeWhile Char.isDigit, inner))
     | _ => none)

/-- The branch-format mnemonic list of the source. -/
def branchList : List String := ["beq", "bgt", "b", "call", "ret"]

/-- The immediate/register class membership list of the source. -/
def baseImmList : List String :=
  ["cmp", "sub", "add", "mul", "mov", "ld", "st", "and", "or", "not"]

/-- The inner `cmp` dispatch list of the source. -/
def cmpList : List String := ["cmp", "cmpu", "cmph"]

/-- The inner three-operand arithmetic dispatch list of the source. -/
def arithList : List String :=
  ["sub", "add", "mul", "and", "or",
   "subu", "addu", "mulu", "andu", "oru",
   "subh", "addh", "mulh", "andh", "orh"]

/-- The inner `mov`/`not` dispatch list of the source. -/
def movList : List String := ["mov", "movu", "movh", "not", "notu", "noth"]

/-- The inner `ld`/`st` dispatch list of the source. -/
def ldstList : List String := ["ld", "st"]

/-- The condition guarding the immediate/register encoder branch:
`mnemonic in [...] or mnemonic in MODIFIER_OPCODES`. -/
def immRegClass (m : String) : Bool :=
  decide (m ∈ baseImmList) || decide (m ∈ MODIFIER_OPCODES)

/-- The modifier-field computation of the source: a mnemonic in
`MODIFIER_OPCODES` gets '01' if it ends in 'u' and '10' otherwise; all
other mnemonics get '00'; the 16-bit immediate follows. -/
def immField (m : String) (immBin : List Char) : List Char :=
  if m ∈ MODIFIER_OPCODES then
    (if lastCh m = 'u' then "01".data ++ immBin else "10".data ++ immBin)
  else "00".data ++ immBin

/-- The all-zero 4-bit default field value `'0000'`. -/
def z4 : List Char := "0000".data

/-- A register-format instruction body (everything after the opcode):
`I=0`, three 4-bit register fields, 14 unused zero bits. -/
def regForm (rd rs1 rs2 : List Char) : List Char :=
  '0' :: (rd ++ (rs1 ++ (rs2 ++ List.replicate 14 '0')))

/-- Outcome of the inner operand dispatch of the immediate/register
encoder branch: a finished register-format body, the data for the final
immediate-format assembly step, a printed diagnostic, or a Python
exception. -/
inductive InnerRes where
  | done (tail : List Char)
  | imm (rd rs1 : List Char) (v : Int)
  | diag
  | crash
  deriving DecidableEq

/-- The `cmp` operand case of the source: operand 1 is rs1 (the rd field
stays '0000'); operand 2 is an immediate or the rs2 register. -/
def dispatchCmp (ops : List String) : InnerRes :=
  match ops with
  | [] => InnerRes.crash
  | a :: rest =>
    match rest with
    | [] => InnerRes.imm z4 (regGet a) 0
    | b :: _ =>
      if isImmTok b then InnerRes.imm z4 (regGet a) (pyInt b)
      else InnerRes.done (regForm z4 (regGet a) (regGet b))

/-- The three-operand arithmetic case of the source: operands are rd, rs1
and then either an immediate or rs2. -/
def dispatchArith (ops : List String) : InnerRes :=
  match ops with
  | a :: b :: rest =>
    (match rest with
     | [] => InnerRes.imm (regGet a) (regGet b) 0
     | c :: _ =>
       if isImmTok c then InnerRes.imm (regGet a) (regGet b) (pyInt c)
       else InnerRes.done (regForm (regGet a) (regGet b) (regGet c)))
  | _ => InnerRes.crash

/-- The `mov`/`not` case of the source: operand 1 is rd; operand 2 is an
immediate or the rs2 register (the rs1 field stays '0000'). -/
def dispatchMov (ops : List String) : InnerRes :=
  match ops with
  | [] => InnerRes.crash
  | a :: rest =>
    match rest with
    | [] => InnerRes.imm (regGet a) z4 0
    | b :: _ =>
      if isImmTok b then InnerRes.imm (regGet a) z4 (pyInt b)
      else InnerRes.done (regForm (regGet a) z4 (regGet b))

/-- The `ld`/`st` case of the source: operand 1 is rd, operand 2 a memory
operand `OFFSET[BASE]`; a failed regex match is a printed diagnostic, and
`int('-')` on a bare minus sign raises. -/
def dispatchLdst (ops : List String) : InnerRes :=
  match ops with
  | a :: b :: _ =>
    (match memMatch b.data with
     | none => InnerRes.diag
     | some p =>
       if p.1 = [] then InnerRes.imm (regGet a) (regGet (String.mk p.2)) 0
       else if p.1 = ['-'] then InnerRes.crash
       else InnerRes.imm (regGet a) (regGet (String.mk p.2)) (pyIntL p.1))
  | _ => InnerRes.crash

/-- The inner operand dispatch of the immediate/register encoder branch.
A class member matching none of the four cases (div/mod u/h variants)
keeps all the defaults: `I=1`, rd and rs1 '0000', immediate 0. -/
def innerDispatch (m : String) (ops : List String) : InnerRes :=
  if m ∈ cmpList then dispatchCmp ops
  else if m ∈ arithList then dispatchArith ops
  else if m ∈ movList then dispatchMov ops
  else if m ∈ ldstList then dispatchLdst ops
  else InnerRes.imm z4 z4 0

/-- Result of encoding one mnemonic-bearing entry: a raw bit string (before
the 32-bit width check), a printed diagnostic, or a Python exception. -/
inductive CoreRes where
  | str (w : List Char)
  | diag
  | crash
  deriving DecidableEq

/-- The immediate/register encoder branch: either the register-format body
produced inside the dispatch, or the final immediate-format assembly
`opcode + I + rd + rs1 + modifier/immediate field`. -/
def encodeImmReg (opc : List Char) (m : String) (ops : List String) : CoreRes :=
  match innerDispatch m ops with
  | InnerRes.done tail => CoreRes.str (opc ++ tail)
  | InnerRes.imm rd rs1 v =>
    CoreRes.str (opc ++ '1' :: (rd ++ (rs1 ++ immField m (to_binary v 16 true))))
  | InnerRes.diag => CoreRes.diag
  | InnerRes.crash => CoreRes.crash

/-- The branch-format encoder of the source: `ret` gets a zero offset;
otherwise the target label is resolved and the 27-bit signed offset is
`target - (current_address + 1)`; an unbound label is a diagnostic. -/
def encodeBranch (label_map : String → Option Nat) (addr : Nat)
    (opc : List Char) (m : String) (ops : List String) : CoreRes :=
  if m = "ret" then CoreRes.str (opc ++ to_binary 0 27 false)
  else
    match ops with
    | [] => CoreRes.crash
    | t :: _ =>
      match label_map t with
      | none => CoreRes.diag
      | some target =>
        CoreRes.str (opc ++ to_binary ((target : Int) - ((addr : Int) + 1)) 27 true)

/-- Pass 2 encoding of a single mnemonic, following the source's dispatch:
unknown mnemonics are diagnostics; branch format first, then the
immediate/register class, then the `nop` fallback (the `ret` arm of the
fallback is dead code) and the not-implemented warning. -/
def encodeCore (label_map : String → Option Nat) (addr : Nat)
    (m : String) (ops : List String) : CoreRes :=
  match opLookup m with
  | none => CoreRes.diag
  | some opc =>
    if m ∈ branchList then encodeBranch label_map addr opc m ops
    else if immRegClass m then encodeImmReg opc m ops
    else if m = "nop" then CoreRes.str (opc ++ List.replicate 27 '0')
    else if m = "ret" then CoreRes.str (opc ++ List.replicate 27 '0')
    else CoreRes.diag

/-- Python truthiness of the `label` field: `None` and the empty string
are both falsy. -/
def labelOf (e : Entry) : Option String :=
  match e.label with
  | some l => if l = "" then none else some l
  | none => none

/-- Python truthiness of the `mnemonic` field: `None` and the empty string
are both falsy. -/
def mnemOf (e : Entry) : Option String :=
  match e.mnemonic with
  | some m => if m = "" then none else some m
  | none => none

/-- A single Python dict binding `label_map[l] = a` (overwriting any
earlier binding of `l`). -/
def bindLabel (lm : String → Option Nat) (l : String) (a : Nat) :
    String → Option Nat :=
  fun s => if s = l then some a else lm s

/-- The Pass 1 loop of the source: bind each (truthy) label to the current
address, then advance the address on each mnemonic-bearing entry. -/
def pass1Aux : (String → Option Nat) → Nat → List Entry → (String → Option Nat)
  | lm, _, [] => lm
  | lm, a, e :: rest =>
    pass1Aux
      (match labelOf e with
       | some l => bindLabel lm l a
       | none => lm)
      (if (mnemOf e).isSome then a + 1 else a) rest

/-- Pass 1 of the source: the label map built from an entry list. -/
def pass1 (entries : List Entry) : String → Option Nat :=
  pass1Aux (fun _ => none) 0 entries

/-- Number of mnemonic-bearing (instruction) entries in a list; the value
of the Pass 1 address counter after processing the list. -/
def countInstr : List Entry → Nat
  | [] => 0
  | e :: rest => (if (mnemOf e).isSome then 1 else 0) + countInstr rest

/-- Outcome of one Pass 2 loop iteration for one entry. -/
inductive StepRes where
  | word (w : List Char)
  | nullOut
  | diag
  | crash
  deriving DecidableEq

/-- The 32-bit width check of the source: a bit string whose length is not
32 is reported and replaced by the all-zero placeholder. -/
def checkWord (w : List Char) : List Char :=
  if w.length = 32 then w else List.replicate 32 '0'

/-- One Pass 2 iteration: entries without a (truthy) mnemonic contribute a
null output; otherwise the encoded word (after the width check), a
diagnostic, or a crash. -/
def stepOf (label_map : String → Option Nat) (addr : Nat) (e : Entry) : StepRes :=
  match mnemOf e with
  | none => StepRes.nullOut
  | some m =>
    match encodeCore label_map addr m e.operands with
    | CoreRes.str w => StepRes.word (checkWord w)
    | CoreRes.diag => StepRes.diag
    | CoreRes.crash => StepRes.crash

/-- Per-entry result of Pass 2: an encoded word appended to
`machine_code`, a null entry appended for a label-only line, or a printed
diagnostic. -/
inductive Res where
  | word (lineNum : Nat) (w : List Char)
  | nullOut (lineNum : Nat)
  | diag (lineNum : Nat)
  deriving DecidableEq

/-- The result an entry contributes for a given step outcome (the crash
case never occurs in the theorems using this). -/
def resOf (e : Entry) : StepRes → Res
  | StepRes.word w => Res.word e.lineNum w
  | StepRes.nullOut => Res.nullOut e.lineNum
  | StepRes.diag => Res.diag e.lineNum
  | StepRes.crash => Res.diag e.lineNum

/-- The Pass 2 loop of the source: one result per entry; mnemonic-bearing
entries advance the address counter whether or not they encode; a Python
exception aborts the whole run. -/
def pass2 (label_map : String → Option Nat) : List Entry → Nat → Except Unit (List Res)
  | [], _ => Except.ok []
  | e :: rest, addr =>
    match stepOf label_map addr e with
    | StepRes.crash => Except.error ()
    | StepRes.nullOut =>
      (pass2 label_map rest addr).map (fun t => Res.nullOut e.lineNum :: t)
    | StepRes.word w =>
      (pass2 label_map rest (addr + 1)).map (fun t => Res.word e.lineNum w :: t)
    | StepRes.diag =>
      (pass2 label_map rest (addr + 1)).map (fun t => Res.diag e.lineNum :: t)

/-- The two-pass `assemble` function of the source, on an already-parsed
entry list. -/
def assemble (entries : List Entry) : Except Unit (List Res) :=
  pass2 (pass1 entries) entries 0

/-- Operand lists long enough for their mnemonic's class (plus, for
`ld`/`st`, a memory operand whose offset group is not a bare minus sign):
the condition under which one Pass 2 iteration cannot raise. -/
def ldOffOk (b : String) : Bool :=
  match memMatch b.data with
  | some p => !(decide (p.1 = ['-']))
  | none => true

/-- Sufficient operands for one entry: the syntactic condition under which
the Pass 2 iteration for the entry cannot raise a Python exception. -/
def opsOk (m : String) (ops : List String) : Bool :=
  if m ∈ branchList then (decide (m = "ret") || decide (1 ≤ ops.length))
  else if m ∈ cmpList then decide (1 ≤ ops.length)
  else if m ∈ arithList then decide (2 ≤ ops.length)
  else if m ∈ movList then decide (1 ≤ ops.length)
  else if m ∈ ldstList then
    decide (2 ≤ ops.length) &&
      (match ops.get? 1 with
       | some b => ldOffOk b
       | none => false)
  else true

/-- Sufficient operands for an entry (vacuous for label-only entries). -/
def opsSufficient (e : Entry) : Bool :=
  match mnemOf e with
  | none => true
  | some m => opsOk m e.operands

theorem binVal_foldl (ys : List Char) (a : Nat) :
    List.foldl (fun x c => 2 * x + (if c = '1' then 1 else 0)) a ys =
      a * 2 ^ ys.length + binVal ys := by
  induction ys generalizing a with
  | nil => simp [binVal]
  | cons c ys ih =>
    simp only [List.foldl_cons, List.length_cons, binVal]
    rw [ih, ih]
    ring

theorem binVal_append (xs ys : List Char) :
    binVal (xs ++ ys) = binVal xs * 2 ^ ys.length + binVal ys := by
  unfold binVal
  rw [List.foldl_append]
  exact binVal_foldl ys _

theorem binVal_replicate_zero (n : Nat) :
    binVal (List.replicate n '0') = 0 := by
  induction n with
  | zero => rfl
  | succ n ih => simpa [List.replicate_succ, binVal, List.foldl_cons] using ih

theorem binVal_zfill (s : List Char) (w : Nat) : binVal (zfill s w) = binVal s := by
  unfold zfill
  rw [binVal_append, binVal_replicate_zero]
  simp

theorem zfill_length (s : List Char) (w : Nat) (h : s.length ≤ w) :
    (zfill s w).length = w := by
  simp [zfill]
  omega

theorem bitsOfAux_binVal : ∀ fuel n, n ≤ fuel → binVal (bitsOfAux fuel n) = n := by
  intro fuel
  induction fuel with
  | zero =>
    intro n h
    have h0 : n = 0 := by omega
    subst h0
    rfl
  | succ fuel ih =>
    intro n h
    by_cases h0 : n = 0
    · subst h0
      rfl
    · simp only [bitsOfAux, if_neg h0]
      rw [binVal_append, ih (n / 2) (by omega)]
      rcases Nat.mod_two_eq_zero_or_one n with h2 | h2 <;>
        simp [h2, binVal] <;> omega

theorem bitsOfAux_len_le : ∀ fuel n k, n ≤ fuel → n < 2 ^ k →
    (bitsOfAux fuel n).length ≤ k := by
  intro fuel
  induction fuel with
  | zero =>
    intro n k h hk
    have h0 : n = 0 := by omega
    subst h0
    simp [bitsOfAux]
  | succ fuel ih =>
    intro n k h hk
    by_cases h0 : n = 0
    · subst h0
      simp [bitsOfAux]
    · cases k with
      | zero =>
        simp only [pow_zero] at hk
        omega
      | succ k =>
        simp only [bitsOfAux, if_neg h0, List.length_append, List.length_singleton]
        have hp := pow_succ 2 k
        have h1 : n / 2 < 2 ^ k := by omega
        have := ih (n / 2) k (by omega) h1
        omega

theorem bitsOfAux_len_ge : ∀ fuel n k, n ≤ fuel → 2 ^ k ≤ n →
    k + 1 ≤ (bitsOfAux fuel n).length := by
  intro fuel
  induction fuel with
  | zero =>
    intro n k h hk
    have h1 : 0 < 2 ^ k := pow_pos (by norm_num) k
    omega
  | succ fuel ih =>
    intro n k h hk
    have h1 : 0 < 2 ^ k := pow_pos (by norm_num) k
    have h0 : n ≠ 0 := by omega
    simp only [bitsOfAux, if_neg h0, List.length_append, List.length_singleton]
    cases k with
    | zero => omega
    | succ k =>
      have hp := pow_succ 2 k
      have h2 : 2 ^ k ≤ n / 2 := by omega
      have := ih (n / 2) k (by omega) h2
      omega

theorem bitsOf_binVal (n : Nat) : binVal (bitsOf n) = n :=
  bitsOfAux_binVal n n le_rfl

theorem bitsOf_len_le (n k : Nat) (h : n < 2 ^ k) : (bitsOf n).length ≤ k :=
  bitsOfAux_len_le n n k le_rfl h

theorem bitsOf_len_ge (n k : Nat) (h : 2 ^ k ≤ n) : k + 1 ≤ (bitsOf n).length :=
  bitsOfAux_len_ge n n k le_rfl h

theorem pyBinNat_binVal (n : Nat) : binVal (pyBinNat n) = n := by
  unfold pyBinNat
  by_cases h0 : n = 0
  · subst h0
    rfl
  · rw [if_neg h0]
    exact bitsOf_binVal n

theorem pyBinNat_len_le (n k : Nat) (h1 : 1 ≤ k) (h : n < 2 ^ k) :
    (pyBinNat n).length ≤ k := by
  unfold pyBinNat
  by_cases h0 : n = 0
  · simp [h0]
    omega
  · rw [if_neg h0]
    exact bitsOf_len_le n k h

theorem to_binary_unsigned (v : Int) (w : Nat) (h1 : 1 ≤ w) (h2 : 0 ≤ v)
    (h3 : v < 2 ^ w) :
    (to_binary v w false).length = w ∧ binVal (to_binary v w false) = v.toNat := by
  have hcast : ((2 ^ w : Nat) : Int) = (2 : Int) ^ w := by push_cast; ring
  have hv : v.toNat < 2 ^ w := by omega
  unfold to_binary
  rw [if_neg (by simp)]
  unfold pyBin
  rw [if_neg (not_lt.mpr h2)]
  exact ⟨zfill_length _ _ (pyBinNat_len_le _ _ h1 hv),
    by rw [binVal_zfill, pyBinNat_binVal]⟩

theorem to_binary_signed (v : Int) (b : Nat) (h1 : 1 ≤ b)
    (h2 : -(2 ^ (b - 1)) ≤ v) (h3 : v < 2 ^ (b - 1)) :
    (to_binary v b true).length = b ∧ decodeTC (to_binary v b true) = v := by
  have hb : b - 1 + 1 = b := by omega
  have hps : (2 : Int) ^ b = 2 ^ (b - 1) * 2 := by
    conv_lhs => rw [← hb]
    rw [pow_succ]
  have hpsN : (2 : Nat) ^ b = 2 ^ (b - 1) * 2 := by
    conv_lhs => rw [← hb]
    rw [pow_succ]
  have hP : (0 : Int) < 2 ^ (b - 1) := pow_pos (by norm_num) _
  have hcast1 : ((2 ^ (b - 1) : Nat) : Int) = (2 : Int) ^ (b - 1) := by
    push_cast; ring
  have hcastb : ((2 ^ b : Nat) : Int) = (2 : Int) ^ b := by push_cast; ring
  by_cases hneg : v < 0
  · have hu0 : 0 ≤ 2 ^ b + v := by omega
    unfold to_binary
    rw [if_pos ⟨rfl, hneg⟩]
    unfold pyBin
    rw [if_neg (not_lt.mpr hu0)]
    unfold pyBinNat
    have hUne : (2 ^ b + v).toNat ≠ 0 := by omega
    rw [if_neg hUne]
    have huNlo : 2 ^ (b - 1) ≤ (2 ^ b + v).toNat := by omega
    have huNhi : (2 ^ b + v).toNat < 2 ^ b := by omega
    have hlen : (bitsOf (2 ^ b + v).toNat).length = b := by
      have hle := bitsOf_len_le _ b huNhi
      have hge := bitsOf_len_ge _ (b - 1) huNlo
      omega
    have hlen2 : (zfill (bitsOf (2 ^ b + v).toNat) b).length = b :=
      zfill_length _ _ (le_of_eq hlen)
    refine ⟨hlen2, ?_⟩
    unfold decodeTC
    rw [binVal_zfill, bitsOf_binVal, hlen2, if_pos huNlo]
    omega
  · have hv0 : 0 ≤ v := by omega
    unfold to_binary
    rw [if_neg (by simp [hneg])]
    unfold pyBin
    rw [if_neg (not_lt.mpr hv0)]
    have hvN : v.toNat < 2 ^ b := by omega
    have hvN1 : v.toNat < 2 ^ (b - 1) := by omega
    have hlen : (zfill (pyBinNat v.toNat) b).length = b :=
      zfill_length _ _ (pyBinNat_len_le _ _ h1 hvN)
    refine ⟨hlen, ?_⟩
    unfold decodeTC
    rw [binVal_zfill, pyBinNat_binVal, hlen, if_neg (by omega)]
    omega

theorem regGet_len4 (r : String) : (regGet r).length = 4 := by
  unfold regGet regLookup
  cases h : REGISTERS.find? (fun p => decide (p.1 = r)) with
  | none => rfl
  | some p =>
    have hm : p ∈ REGISTERS := List.mem_of_find?_eq_some h
    have hall : ∀ q ∈ REGISTERS, q.2.length = 4 := by decide
    simpa using hall p hm

theorem z4_len : z4.length = 4 := rfl

theorem opLookup_len5 (m : String) (opc : List Char) (h : opLookup m = some opc) :
    opc.length = 5 := by
  unfold opLookup at h
  cases hf : OPCODES.find? (fun p => decide (p.1 = m)) with
  | none => rw [hf] at h; simp at h
  | some p =>
    rw [hf] at h
    simp only [Option.map_some'] at h
    have hm : p ∈ OPCODES := List.mem_of_find?_eq_some hf
    have hall : ∀ q ∈ OPCODES, q.2.length = 5 := by decide
    injection h with h2
    rw [← h2]
    exact hall p hm

theorem immRegClass_mem (m : String) (h : immRegClass m = true) :
    m ∈ baseImmList ∨ m ∈ MODIFIER_OPCODES := by
  unfold immRegClass at h
  simpa using h

theorem immReg_opLookup (m : String) (h : immRegClass m = true) :
    (opLookup m).isSome = true := by
  rcases immRegClass_mem m h with hm | hm
  · have hall : ∀ x ∈ baseImmList, (opLookup x).isSome = true := by decide
    exact hall m hm
  · have hall : ∀ x ∈ MODIFIER_OPCODES, (opLookup x).isSome = true := by decide
    exact hall m hm

theorem immReg_not_branch (m : String) (h : immRegClass m = true) :
    m ∉ branchList := by
  rcases immRegClass_mem m h with hm | hm
  · have hall : ∀ x ∈ baseImmList, x ∉ branchList := by decide
    exact hall m hm
  · have hall : ∀ x ∈ MODIFIER_OPCODES, x ∉ branchList := by decide
    exact hall m hm

theorem immField_eq (m : String) (h : immRegClass m = true) (bs : List Char) :
    immField m bs =
      (if lastCh m = 'u' then "01".data
       else if lastCh m = 'h' then "10".data else "00".data) ++ bs := by
  rcases immRegClass_mem m h with hm | hm
  · fin_cases hm <;> rfl
  · fin_cases hm <;> rfl

theorem drop_app_plus {α : Type} (xs ys : List α) (k : Nat) :
    (xs ++ ys).drop (xs.length + k) = ys.drop k := by
  induction xs with
  | nil => simp
  | cons x xs ih =>
    simp only [List.cons_append, List.length_cons]
    rw [show xs.length + 1 + k = (xs.length + k) + 1 by omega]
    simp [ih]

theorem dispatchCmp_done (ops : List String) (t : List Char)
    (h : dispatchCmp ops = InnerRes.done t) :
    ∃ x y z, x.length = 4 ∧ y.length = 4 ∧ z.length = 4 ∧ t = regForm x y z := by
  cases ops with
  | nil => simp [dispatchCmp] at h
  | cons a rest =>
    cases rest with
    | nil => simp [dispatchCmp] at h
    | cons b r =>
      by_cases hb : isImmTok b = true
      · simp [dispatchCmp, hb] at h
      · simp only [dispatchCmp, if_neg hb] at h
        injection h with h1
        exact ⟨z4, regGet a, regGet b, z4_len, regGet_len4 a, regGet_len4 b, h1.symm⟩

theorem dispatchArith_done (ops : List String) (t : List Char)
    (h : dispatchArith ops = InnerRes.done t) :
    ∃ x y z, x.length = 4 ∧ y.length = 4 ∧ z.length = 4 ∧ t = regForm x y z := by
  cases ops with
  | nil => simp [dispatchArith] at h
  | cons a rest =>
    cases rest with
    | nil => simp [dispatchArith] at h
    | cons b r =>
      cases r with
      | nil => simp [dispatchArith] at h
      | cons c r2 =>
        by_cases hc : isImmTok c = true
        · simp [dispatchArith, hc] at h
        · simp only [dispatchArith, if_neg hc] at h
          injection h with h1
          exact ⟨regGet a, regGet b, regGet c,
            regGet_len4 a, regGet_len4 b, regGet_len4 c, h1.symm⟩

theorem dispatchMov_done (ops : List String) (t : List Char)
    (h : dispatchMov ops = InnerRes.done t) :
    ∃ x y z, x.length = 4 ∧ y.length = 4 ∧ z.length = 4 ∧ t = regForm x y z := by
  cases ops with
  | nil => simp [dispatchMov] at h
  | cons a rest =>
    cases rest with
    | nil => simp [dispatchMov] at h
    | cons b r =>
      by_cases hb : isImmTok b = true
      · simp [dispatchMov, hb] at h
      · simp only [dispatchMov, if_neg hb] at h
        injection h with h1
        exact ⟨regGet a, z4, regGet b, regGet_len4 a, z4_len, regGet_len4 b, h1.symm⟩

theorem dispatchLdst_not_done (ops : List String) (t : List Char) :
    dispatchLdst ops ≠ InnerRes.done t := by
  intro h
  cases ops with
  | nil => simp [dispatchLdst] at h
  | cons a rest =>
    cases rest with
    | nil => simp [dispatchLdst] at h
    | cons b r =>
      cases hm : memMatch b.data with
      | none => simp [dispatchLdst, hm] at h
      | some p =>
        by_cases h1 : p.1 = []
        · simp [dispatchLdst, hm, h1] at h
        · by_cases h2 : p.1 = ['-']
          · simp [dispatchLdst, hm, h1, h2] at h
          · simp [dispatchLdst, hm, h1, h2] at h

theorem innerDispatch_done (m : String) (ops : List String) (t : List Char)
    (h : innerDispatch m ops = InnerRes.done t) :
    ∃ x y z, x.length = 4 ∧ y.length = 4 ∧ z.length = 4 ∧ t = regForm x y z := by
  unfold innerDispatch at h
  by_cases h1 : m ∈ cmpList
  · rw [if_pos h1] at h
    exact dispatchCmp_done _ _ h
  · rw [if_neg h1] at h
    by_cases h2 : m ∈ arithList
    · rw [if_pos h2] at h
      exact dispatchArith_done _ _ h
    · rw [if_neg h2] at h
      by_cases h3 : m ∈ movList
      · rw [if_pos h3] at h
        exact dispatchMov_done _ _ h
      · rw [if_neg h3] at h
        by_cases h4 : m ∈ ldstList
        · rw [if_pos h4] at h
          exact absurd h (dispatchLdst_not_done _ _)
        · rw [if_neg h4] at h
          simp at h

theorem dispatchCmp_imm (ops : List String) (rd rs1 : List Char) (v : Int)
    (h : dispatchCmp ops = InnerRes.imm rd rs1 v) :
    rd.length = 4 ∧ rs1.length = 4 := by
  cases ops with
  | nil => simp [dispatchCmp] at h
  | cons a rest =>
    cases rest with
    | nil =>
      simp only [dispatchCmp] at h
      injection h with h1 h2 h3
      exact ⟨h1 ▸ z4_len, h2 ▸ regGet_len4 a⟩
    | cons b r =>
      by_cases hb : isImmTok b = true
      · simp only [dispatchCmp, if_pos hb] at h
        injection h with h1 h2 h3
        exact ⟨h1 ▸ z4_len, h2 ▸ regGet_len4 a⟩
      · simp [dispatchCmp, hb] at h

theorem dispatchArith_imm (ops : List String) (rd rs1 : List Char) (v : Int)
    (h : dispatchArith ops = InnerRes.imm rd rs1 v) :
    rd.length = 4 ∧ rs1.length = 4 := by
  cases ops with
  | nil => simp [dispatchArith] at h
  | cons a rest =>
    cases rest with
    | nil => simp [dispatchArith] at h
    | cons b r =>
      cases r with
      | nil =>
        simp only [dispatchArith] at h
        injection h with h1 h2 h3
        exact ⟨h1 ▸ regGet_len4 a, h2 ▸ regGet_len4 b⟩
      | cons c r2 =>
        by_cases hc : isImmTok c = true
        · simp only [dispatchArith, if_pos hc] at h
          injection h with h1 h2 h3
          exact ⟨h1 ▸ regGet_len4 a, h2 ▸ regGet_len4 b⟩
        · simp [dispatchArith, hc] at h

theorem dispatchMov_imm (ops : List String) (rd rs1 : List Char) (v : Int)
    (h : dispatchMov ops = InnerRes.imm rd rs1 v) :
    rd.length = 4 ∧ rs1.length = 4 := by
  cases ops with
  | nil => simp [dispatchMov] at h
  | cons a rest =>
    cases rest with
    | nil =>
      simp only [dispatchMov] at h
      injection h with h1 h2 h3
      exact ⟨h1 ▸ regGet_len4 a, h2 ▸ z4_len⟩
    | cons b r =>
      by_cases hb : isImmTok b = true
      · simp only [dispatchMov, if_pos hb] at h
        injection h with h1 h2 h3
        exact ⟨h1 ▸ regGet_len4 a, h2 ▸ z4_len⟩
      · simp [dispatchMov, hb] at h

theorem dispatchLdst_imm (ops : List String) (rd rs1 : List Char) (v : Int)
    (h : dispatchLdst ops = InnerRes.imm rd rs1 v) :
    rd.length = 4 ∧ rs1.length = 4 := by
  cases ops with
  | nil => simp [dispatchLdst] at h
  | cons a rest =>
    cases rest with
    | nil => simp [dispatchLdst] at h
    | cons b r =>
      cases hm : memMatch b.data with
      | none => simp [dispatchLdst, hm] at h
      | some p =>
        by_cases h1 : p.1 = []
        · simp only [dispatchLdst, hm, if_pos h1] at h
          injection h with ha hb2 hc
          exact ⟨ha ▸ regGet_len4 a, hb2 ▸ regGet_len4 _⟩
        · by_cases h2 : p.1 = ['-']
          · simp [dispatchLdst, hm, h1, h2] at h
          · simp only [dispatchLdst, hm, if_neg h1, if_neg h2] at h
            injection h with ha hb2 hc
            exact ⟨ha ▸ regGet_len4 a, hb2 ▸ regGet_len4 _⟩

theorem innerDispatch_imm (m : String) (ops : List String)
    (rd rs1 : List Char) (v : Int)
    (h : innerDispatch m ops = InnerRes.imm rd rs1 v) :
    rd.length = 4 ∧ rs1.length = 4 := by
  unfold innerDispatch at h
  by_cases h1 : m ∈ cmpList
  · rw [if_pos h1] at h
    exact dispatchCmp_imm _ _ _ _ h
  · rw [if_neg h1] at h
    by_cases h2 : m ∈ arithList
    · rw [if_pos h2] at h
      exact dispatchArith_imm _ _ _ _ h
    · rw [if_neg h2] at h
      by_cases h3 : m ∈ movList
      · rw [if_pos h3] at h
        exact dispatchMov_imm _ _ _ _ h
      · rw [if_neg h3] at h
        by_cases h4 : m ∈ ldstList
        · rw [if_pos h4] at h
          exact dispatchLdst_imm _ _ _ _ h
        · rw [if_neg h4] at h
          injection h with ha hb hc
          exact ⟨ha ▸ z4_len, hb ▸ z4_len⟩

theorem get?_app_len {α : Type} (xs t : List α) :
    (xs ++ t).get? xs.length = t.get? 0 := by
  induction xs with
  | nil => rfl
  | cons x xs ih => simpa using ih

theorem get5_of_append {α : Type} (xs t : List α) (h : xs.length = 5) :
    (xs ++ t).get? 5 = t.get? 0 := by
  rw [← h]
  exact get?_app_len xs t

theorem encodeCore_str_bits (lm : String → Option Nat) (addr : Nat) (m : String)
    (ops : List String) (w : List Char) (hc : immRegClass m = true)
    (he : encodeCore lm addr m ops = CoreRes.str w) :
    (w.get? 5 = some '1' → (w.drop 14).take 2 =
      (if lastCh m = 'u' then "01".data
       else if lastCh m = 'h' then "10".data else "00".data)) ∧
    (w.get? 5 = some '0' → w.drop 18 = List.replicate 14 '0') := by
  obtain ⟨opc, hop⟩ : ∃ opc, opLookup m = some opc := by
    have hs := immReg_opLookup m hc
    cases hq : opLookup m with
    | none => rw [hq] at hs; simp at hs
    | some o => exact ⟨o, rfl⟩
  have hlen5 := opLookup_len5 m opc hop
  have hnb := immReg_not_branch m hc
  unfold encodeCore at he
  simp only [hop] at he
  rw [if_neg hnb, if_pos hc] at he
  cases hd : innerDispatch m ops with
  | done t =>
    simp only [encodeImmReg, hd] at he
    injection he with hw
    obtain ⟨x, y, z, hx, hy, hz, ht⟩ := innerDispatch_done m ops t hd
    subst ht
    subst hw
    constructor
    · intro h5
      rw [get5_of_append opc _ hlen5] at h5
      simp [regForm] at h5
    · intro h5
      have e1 : (opc ++ regForm x y z).drop 18 = (regForm x y z).drop 13 := by
        have h := drop_app_plus opc (regForm x y z) 13
        rw [hlen5] at h
        simpa using h
      rw [e1]
      unfold regForm
      rw [show ((('0' : Char) ::
            (x ++ (y ++ (z ++ List.replicate 14 '0')))).drop 13) =
          (x ++ (y ++ (z ++ List.replicate 14 '0'))).drop 12 from rfl]
      have e2 : (x ++ (y ++ (z ++ List.replicate 14 '0'))).drop 12 =
          (y ++ (z ++ List.replicate 14 '0')).drop 8 := by
        have h := drop_app_plus x (y ++ (z ++ List.replicate 14 '0')) 8
        rw [hx] at h
        simpa using h
      rw [e2]
      have e3 : (y ++ (z ++ List.replicate 14 '0')).drop 8 =
          (z ++ List.replicate 14 '0').drop 4 := by
        have h := drop_app_plus y (z ++ List.replicate 14 '0') 4
        rw [hy] at h
        simpa using h
      rw [e3]
      have e4 : (z ++ List.replicate 14 '0').drop 4 =
          (List.replicate 14 '0').drop 0 := by
        have h := drop_app_plus z (List.replicate 14 '0') 0
        rw [hz] at h
        simpa using h
      rw [e4]
      simp
  | imm rd rs1 v =>
    simp only [encodeImmReg, hd] at he
    injection he with hw
    obtain ⟨hrd, hrs1⟩ := innerDispatch_imm m ops rd rs1 v hd
    subst hw
    constructor
    · intro h5
      have e1 : (opc ++ '1' :: (rd ++ (rs1 ++ immField m (to_binary v 16 true)))).drop 14 =
          ('1' :: (rd ++ (rs1 ++ immField m (to_binary v 16 true)))).drop 9 := by
        have h := drop_app_plus opc
          ('1' :: (rd ++ (rs1 ++ immField m (to_binary v 16 true)))) 9
        rw [hlen5] at h
        simpa using h
      rw [e1]
      rw [show ((('1' : Char) ::
            (rd ++ (rs1 ++ immField m (to_binary v 16 true)))).drop 9) =
          (rd ++ (rs1 ++ immField m (to_binary v 16 true))).drop 8 from rfl]
      have e2 : (rd ++ (rs1 ++ immField m (to_binary v 16 true))).drop 8 =
          (rs1 ++ immField m (to_binary v 16 true)).drop 4 := by
        have h := drop_app_plus rd (rs1 ++ immField m (to_binary v 16 true)) 4
        rw [hrd] at h
        simpa using h
      rw [e2]
      have e3 : (rs1 ++ immField m (to_binary v 16 true)).drop 4 =
          (immField m (to_binary v 16 true)).drop 0 := by
        have h := drop_app_plus rs1 (immField m (to_binary v 16 true)) 0
        rw [hrs1] at h
        simpa using h
      rw [e3, List.drop_zero, immField_eq m hc]
      by_cases hu : lastCh m = 'u'
      · simp [hu]
      · by_cases hh : lastCh m = 'h' <;> simp [hu, hh]
    · intro h5
      rw [get5_of_append opc _ hlen5] at h5
      simp at h5
  | diag => simp [encodeImmReg, hd] at he
  | crash => simp [encodeImmReg, hd] at he

theorem innerDispatch_ne_crash (m : String) (ops : List String)
    (hb : m ∉ branchList) (h : opsOk m ops = true) :
    innerDispatch m ops ≠ InnerRes.crash := by
  intro hcr
  unfold opsOk at h
  rw [if_neg hb] at h
  unfold innerDispatch at hcr
  by_cases h1 : m ∈ cmpList
  · rw [if_pos h1] at h hcr
    have hlen : 1 ≤ ops.length := of_decide_eq_true h
    cases ops with
    | nil => simp at hlen
    | cons a rest =>
      cases rest with
      | nil => simp [dispatchCmp] at hcr
      | cons b r => by_cases hb2 : isImmTok b = true <;> simp [dispatchCmp, hb2] at hcr
  · rw [if_neg h1] at h hcr
    by_cases h2 : m ∈ arithList
    · rw [if_pos h2] at h hcr
      have hlen : 2 ≤ ops.length := of_decide_eq_true h
      cases ops with
      | nil => simp at hlen
      | cons a rest =>
        cases rest with
        | nil => simp at hlen
        | cons b r =>
          cases r with
          | nil => simp [dispatchArith] at hcr
          | cons c r2 =>
            by_cases hc : isImmTok c = true <;> simp [dispatchArith, hc] at hcr
    · rw [if_neg h2] at h hcr
      by_cases h3 : m ∈ movList
      · rw [if_pos h3] at h hcr
        have hlen : 1 ≤ ops.length := of_decide_eq_true h
        cases ops with
        | nil => simp at hlen
        | cons a rest =>
          cases rest with
          | nil => simp [dispatchMov] at hcr
          | cons b r =>
            by_cases hb2 : isImmTok b = true <;> simp [dispatchMov, hb2] at hcr
      · rw [if_neg h3] at h hcr
        by_cases h4 : m ∈ ldstList
        · rw [if_pos h4] at h hcr
          rw [Bool.and_eq_true] at h
          obtain ⟨hlen2, hoff⟩ := h
          have hlen : 2 ≤ ops.length := of_decide_eq_true hlen2
          cases ops with
          | nil => simp at hlen
          | cons a rest =>
            cases rest with
            | nil => simp at hlen
            | cons b r =>
              have hoff2 : ldOffOk b = true := hoff
              cases hm : memMatch b.data with
              | none => simp [dispatchLdst, hm] at hcr
              | some p =>
                by_cases hp1 : p.1 = []
                · simp [dispatchLdst, hm, hp1] at hcr
                · have hne : ¬ p.1 = ['-'] := by
                    unfold ldOffOk at hoff2
                    rw [hm] at hoff2
                    simpa using hoff2
                  simp [dispatchLdst, hm, hp1, hne] at hcr
        · rw [if_neg h4] at hcr
          simp at hcr

theorem encodeCore_ne_crash (lm : String → Option Nat) (addr : Nat)
    (m : String) (ops : List String) (h : opsOk m ops = true) :
    encodeCore lm addr m ops ≠ CoreRes.crash := by
  intro hcr
  unfold encodeCore at hcr
  cases hq : opLookup m with
  | none => simp only [hq] at hcr; simp at hcr
  | some opc =>
    simp only [hq] at hcr
    by_cases hb : m ∈ branchList
    · rw [if_pos hb] at hcr
      unfold opsOk at h
      rw [if_pos hb] at h
      unfold encodeBranch at hcr
      by_cases hr : m = "ret"
      · rw [if_pos hr] at hcr
        simp at hcr
      · rw [if_neg hr] at hcr
        rw [Bool.or_eq_true] at h
        rcases h with h | h
        · exact hr (of_decide_eq_true h)
        · have hlen : 1 ≤ ops.length := of_decide_eq_true h
          cases ops with
          | nil => simp at hlen
          | cons t r =>
            cases hlm : lm t with
            | none => simp [hlm] at hcr
            | some target => simp [hlm] at hcr
    · rw [if_neg hb] at hcr
      by_cases hi : immRegClass m = true
      · rw [if_pos hi] at hcr
        unfold encodeImmReg at hcr
        cases hd : innerDispatch m ops with
        | done t => simp [hd] at hcr
        | imm rd rs1 v => simp [hd] at hcr
        | diag => simp [hd] at hcr
        | crash => exact innerDispatch_ne_crash m ops hb h hd
      · rw [if_neg hi] at hcr
        by_cases hn : m = "nop"
        · rw [if_pos hn] at hcr
          simp at hcr
        · rw [if_neg hn] at hcr
          by_cases hr : m = "ret"
          · rw [if_pos hr] at hcr
            simp at hcr
          · rw [if_neg hr] at hcr
            simp at hcr

theorem stepOf_ne_crash (lm : String → Option Nat) (addr : Nat) (e : Entry)
    (h : opsSufficient e = true) : stepOf lm addr e ≠ StepRes.crash := by
  intro hcr
  unfold stepOf at hcr
  unfold opsSufficient at h
  cases hm : mnemOf e with
  | none => simp [hm] at hcr
  | some m =>
    rw [hm] at h
    simp only [hm] at hcr
    cases hc : encodeCore lm addr m e.operands with
    | str w => simp [hc] at hcr
    | diag => simp [hc] at hcr
    | crash => exact (encodeCore_ne_crash lm addr m e.operands h) hc

theorem stepOf_word_len (lm : String → Option Nat) (addr : Nat) (e : Entry)
    (w : List Char) (h : stepOf lm addr e = StepRes.word w) : w.length = 32 := by
  unfold stepOf at h
  cases hm : mnemOf e with
  | none => simp [hm] at h
  | some m =>
    simp only [hm] at h
    cases hc : encodeCore lm addr m e.operands with
    | str w0 =>
      simp only [hc] at h
      injection h with h2
      rw [← h2]
      unfold checkWord
      by_cases hl : w0.length = 32
      · rw [if_pos hl]
        exact hl
      · rw [if_neg hl]
        simp
    | diag => simp [hc] at h
    | crash => simp [hc] at h

theorem pass2_word_len (lm : String → Option Nat) :
    ∀ (entries : List Entry) (addr : Nat) (out : List Res),
      pass2 lm entries addr = Except.ok out →
      ∀ n w, Res.word n w ∈ out → w.length = 32 := by
  intro entries
  induction entries with
  | nil =>
    intro addr out h n w hm
    simp only [pass2] at h
    injection h with h1
    rw [← h1] at hm
    simp at hm
  | cons e rest ih =>
    intro addr out h n w hm
    simp only [pass2] at h
    cases hstep : stepOf lm addr e with
    | crash => rw [hstep] at h; simp at h
    | nullOut =>
      rw [hstep] at h
      cases hrec : pass2 lm rest addr with
      | error u => rw [hrec] at h; simp [Except.map] at h
      | ok out2 =>
        rw [hrec] at h
        simp only [Except.map] at h
        injection h with h1
        rw [← h1] at hm
        rcases List.mem_cons.mp hm with hh | hh
        · simp at hh
        · exact ih addr out2 hrec n w hh
    | word w2 =>
      rw [hstep] at h
      cases hrec : pass2 lm rest (addr + 1) with
      | error u => rw [hrec] at h; simp [Except.map] at h
      | ok out2 =>
        rw [hrec] at h
        simp only [Except.map] at h
        injection h with h1
        rw [← h1] at hm
        rcases List.mem_cons.mp hm with hh | hh
        · injection hh with hh1 hh2
          rw [hh2]
          exact stepOf_word_len lm addr e w2 hstep
        · exact ih (addr + 1) out2 hrec n w hh
    | diag =>
      rw [hstep] at h
      cases hrec : pass2 lm rest (addr + 1) with
      | error u => rw [hrec] at h; simp [Except.map] at h
      | ok out2 =>
        rw [hrec] at h
        simp only [Except.map] at h
        injection h with h1
        rw [← h1] at hm
        rcases List.mem_cons.mp hm with hh | hh
        · simp at hh
        · exact ih (addr + 1) out2 hrec n w hh

theorem pass2_spec (lm : String → Option Nat) :
    ∀ (entries : List Entry) (addr : Nat),
      (∀ e ∈ entries, opsSufficient e = true) →
      ∃ out, pass2 lm entries addr = Except.ok out ∧
        out.length = entries.length ∧
        ∀ i e, entries.get? i = some e →
          out.get? i =
            some (resOf e (stepOf lm (addr + countInstr (entries.take i)) e)) := by
  intro entries
  induction entries with
  | nil =>
    intro addr h
    exact ⟨[], rfl, rfl, fun i e hi => by simp at hi⟩
  | cons e rest ih =>
    intro addr h
    have he : opsSufficient e = true := h e (List.mem_cons_self e rest)
    have hrest : ∀ x ∈ rest, opsSufficient x = true :=
      fun x hx => h x (List.mem_cons_of_mem e hx)
    have hnc := stepOf_ne_crash lm addr e he
    cases hstep : stepOf lm addr e with
    | crash => exact absurd hstep hnc
    | word w =>
      have hmn : (mnemOf e).isSome = true := by
        unfold stepOf at hstep
        cases hm : mnemOf e with
        | none => simp [hm] at hstep
        | some m => simp
      obtain ⟨out, h1, h2, h3⟩ := ih (addr + 1) hrest
      refine ⟨Res.word e.lineNum w :: out, ?_, ?_, ?_⟩
      · simp only [pass2, hstep, h1, Except.map]
      · simp [h2]
      · intro i e2 hi
        cases i with
        | zero =>
          rw [List.get?_cons_zero] at hi
          injection hi with hee
          subst hee
          simp only [List.get?_cons_zero, List.take_zero, countInstr,
            Nat.add_zero, hstep, resOf]
        | succ j =>
          rw [List.get?_cons_succ] at hi ⊢
          have h4 := h3 j e2 hi
          have harith : addr + countInstr ((e :: rest).take (j + 1)) =
              addr + 1 + countInstr (rest.take j) := by
            rw [show (e :: rest).take (j + 1) = e :: rest.take j from rfl]
            rw [show countInstr (e :: rest.take j) =
              (if (mnemOf e).isSome then 1 else 0) + countInstr (rest.take j)
              from rfl]
            rw [if_pos hmn]
            omega
          rw [harith]
          exact h4
    | diag =>
      have hmn : (mnemOf e).isSome = true := by
        unfold stepOf at hstep
        cases hm : mnemOf e with
        | none => simp [hm] at hstep
        | some m => simp
      obtain ⟨out, h1, h2, h3⟩ := ih (addr + 1) hrest
      refine ⟨Res.diag e.lineNum :: out, ?_, ?_, ?_⟩
      · simp only [pass2, hstep, h1, Except.map]
      · simp [h2]
      · intro i e2 hi
        cases i with
        | zero =>
          rw [List.get?_cons_zero] at hi
          injection hi with hee
          subst hee
          simp only [List.get?_cons_zero, List.take_zero, countInstr,
            Nat.add_zero, hstep, resOf]
        | succ j =>
          rw [List.get?_cons_succ] at hi ⊢
          have h4 := h3 j e2 hi
          have harith : addr + countInstr ((e :: rest).take (j + 1)) =
              addr + 1 + countInstr (rest.take j) := by
            rw [show (e :: rest).take (j + 1) = e :: rest.take j from rfl]
            rw [show countInstr (e :: rest.take j) =
              (if (mnemOf e).isSome then 1 else 0) + countInstr (rest.take j)
              from rfl]
            rw [if_pos hmn]
            omega
          rw [harith]
          exact h4
    | nullOut =>
      have hmn : mnemOf e = none := by
        unfold stepOf at hstep
        cases hm : mnemOf e with
        | none => rfl
        | some m =>
          simp only [hm] at hstep
          cases hc : encodeCore lm addr m e.operands <;> simp [hc] at hstep
      obtain ⟨out, h1, h2, h3⟩ := ih addr hrest
      refine ⟨Res.nullOut e.lineNum :: out, ?_, ?_, ?_⟩
      · simp only [pass2, hstep, h1, Except.map]
      · simp [h2]
      · intro i e2 hi
        cases i with
        | zero =>
          rw [List.get?_cons_zero] at hi
          injection hi with hee
          subst hee
          simp only [List.get?_cons_zero, List.take_zero, countInstr,
            Nat.add_zero, hstep, resOf]
        | succ j =>
          rw [List.get?_cons_succ] at hi ⊢
          have h4 := h3 j e2 hi
          have harith : addr + countInstr ((e :: rest).take (j + 1)) =
              addr + countInstr (rest.take j) := by
            rw [show (e :: rest).take (j + 1) = e :: rest.take j from rfl]
            rw [show countInstr (e :: rest.take j) =
              (if (mnemOf e).isSome then 1 else 0) + countInstr (rest.take j)
              from rfl]
            rw [hmn]
            simp
          rw [harith]
          exact h4

theorem countInstr_append (xs ys : List Entry) :
    countInstr (xs ++ ys) = countInstr xs + countInstr ys := by
  induction xs with
  | nil => simp [countInstr]
  | cons e xs ih => simp [countInstr, ih, Nat.add_assoc]

theorem pass1Aux_no_label (post : List Entry) :
    ∀ (lm : String → Option Nat) (a : Nat) (l : String),
      (∀ x ∈ post, labelOf x ≠ some l) → pass1Aux lm a post l = lm l := by
  induction post with
  | nil => intro lm a l h; rfl
  | cons e rest ih =>
    intro lm a l h
    have he : labelOf e ≠ some l := h e (List.mem_cons_self e rest)
    have hr : ∀ x ∈ rest, labelOf x ≠ some l :=
      fun x hx => h x (List.mem_cons_of_mem e hx)
    simp only [pass1Aux]
    rw [ih _ _ _ hr]
    cases hl : labelOf e with
    | none => rfl
    | some l2 =>
      have hne : ¬ l = l2 := by
        intro hc
        exact he (by rw [hl, hc])
      simp only [bindLabel]
      rw [if_neg hne]

theorem pass1Aux_lookup :
    ∀ (pre : List Entry) (e : Entry) (post : List Entry) (l : String)
      (lm : String → Option Nat) (a : Nat),
      labelOf e = some l → (∀ x ∈ post, labelOf x ≠ some l) →
      pass1Aux lm a (pre ++ e :: post) l = some (a + countInstr pre) := by
  intro pre
  induction pre with
  | nil =>
    intro e post l lm a h1 h2
    simp only [List.nil_append, pass1Aux]
    rw [pass1Aux_no_label post _ _ _ h2, h1]
    simp [bindLabel, countInstr]
  | cons p pre ih =>
    intro e post l lm a h1 h2
    simp only [List.cons_append, pass1Aux, List.append_eq]
    rw [ih e post l _ _ h1 h2]
    rw [show countInstr (p :: pre) =
      (if (mnemOf p).isSome then 1 else 0) + countInstr pre from rfl]
    by_cases hp : (mnemOf p).isSome = true
    · rw [if_pos hp, if_pos hp]
      congr 1
      omega
    · rw [if_neg hp, if_neg hp]
      congr 1
      omega

theorem pass1_lookup (pre : List Entry) (e : Entry) (post : List Entry)
    (l : String) (h1 : labelOf e = some l)
    (h2 : ∀ x ∈ post, labelOf x ≠ some l) :
    pass1 (pre ++ e :: post) l = some (countInstr pre) := by
  unfold pass1
  have h := pass1Aux_lookup pre e post l (fun _ => none) 0 h1 h2
  simpa using h

theorem countInstr_all_none (xs : List Entry) (h : ∀ x ∈ xs, mnemOf x = none) :
    countInstr xs = 0 := by
  induction xs with
  | nil => rfl
  | cons e rest ih =>
    have he := h e (List.mem_cons_self e rest)
    have hr : ∀ x ∈ rest, mnemOf x = none :=
      fun x hx => h x (List.mem_cons_of_mem e hx)
    rw [show countInstr (e :: rest) =
      (if (mnemOf e).isSome then 1 else 0) + countInstr rest from rfl]
    rw [he, ih hr]
    simp

/-- Claim C1: for every branch or call instruction (beq, bgt, b, call) whose
target label is bound in the symbol table (with target and current address in
the 27-bit signed range), the emitted word is the opcode followed by the
27-bit two's-complement encoding of `targetAddress - (currentAddress + 1)`;
that offset field has length 27, decodes back to
`targetAddress - (currentAddress + 1)`, and adding back
`currentAddress + 1` reproduces the target address. -/
theorem C1_branch_offset (lm : String → Option Nat) (addr target : Nat)
    (m t : String) (ops : List String)
    (hm : m ∈ ["beq", "bgt", "b", "call"])
    (hops : ops.head? = some t)
    (hl : lm t = some target)
    (h1 : target < 2 ^ 26) (h2 : addr < 2 ^ 26) :
    encodeCore lm addr m ops =
      CoreRes.str ((opLookup m).getD [] ++
        to_binary ((target : Int) - ((addr : Int) + 1)) 27 true) ∧
    (to_binary ((target : Int) - ((addr : Int) + 1)) 27 true).length = 27 ∧
    decodeTC (to_binary ((target : Int) - ((addr : Int) + 1)) 27 true) =
      (target : Int) - ((addr : Int) + 1) ∧
    decodeTC (to_binary ((target : Int) - ((addr : Int) + 1)) 27 true) +
      ((addr : Int) + 1) = (target : Int) := by
  have hpow : (2 : Int) ^ 26 = 67108864 := by norm_num
  have hpowN : (2 : Nat) ^ 26 = 67108864 := by norm_num
  rw [hpowN] at h1 h2
  have hlo : -(2 ^ (27 - 1)) ≤ (target : Int) - ((addr : Int) + 1) := by
    rw [show (27 - 1 : Nat) = 26 from rfl, hpow]
    omega
  have hhi : (target : Int) - ((addr : Int) + 1) < 2 ^ (27 - 1) := by
    rw [show (27 - 1 : Nat) = 26 from rfl, hpow]
    omega
  have hts := to_binary_signed ((target : Int) - ((addr : Int) + 1)) 27
    (by norm_num) hlo hhi
  simp only [List.mem_cons, List.mem_singleton, List.not_mem_nil, or_false] at hm
  have hdec : decodeTC (to_binary ((target : Int) - ((addr : Int) + 1)) 27 true) +
      ((addr : Int) + 1) = (target : Int) := by
    rw [hts.2]
    ring
  rcases hm with rfl | rfl | rfl | rfl <;>
  · cases ops with
    | nil => simp at hops
    | cons t0 r =>
      rw [List.head?_cons] at hops
      injection hops with ht0
      subst ht0
      refine ⟨?_, hts.1, hts.2, hdec⟩
      simp only [encodeCore, encodeBranch, hl]
      rfl

/-- Witness for C1 at a concrete input: `b loop` at address 1 with `loop`
bound to address 3 encodes offset 1 and decodes back to target 3. -/
theorem C1_branch_offset_wit :
    encodeCore (fun s => if s = "loop" then some 3 else none) 1 "b" ["loop"] =
      CoreRes.str ((opLookup "b").getD [] ++
        to_binary (((3 : Nat) : Int) - (((1 : Nat) : Int) + 1)) 27 true) ∧
    (to_binary (((3 : Nat) : Int) - (((1 : Nat) : Int) + 1)) 27 true).length = 27 ∧
    decodeTC (to_binary (((3 : Nat) : Int) - (((1 : Nat) : Int) + 1)) 27 true) =
      ((3 : Nat) : Int) - (((1 : Nat) : Int) + 1) ∧
    decodeTC (to_binary (((3 : Nat) : Int) - (((1 : Nat) : Int) + 1)) 27 true) +
      (((1 : Nat) : Int) + 1) = ((3 : Nat) : Int) :=
  C1_branch_offset (fun s => if s = "loop" then some 3 else none) 1 3 "b" "loop"
    ["loop"] (by decide) rfl rfl (by norm_num) (by norm_num)

/-- Claim C2: Pass 1 binds a label (at an occurrence not re-bound later) to
the number of mnemonic-carrying entries strictly preceding it, and when the
labelled entry carries no mnemonic, the next mnemonic-carrying entry sits at
that same address (label-only and mnemonic-less entries never advance the
counter). -/
theorem C2_pass1_addresses (pre post : List Entry) (e : Entry) (l : String)
    (h0 : l ≠ "") (h1 : e.label = some l)
    (h2 : ∀ x ∈ post, labelOf x ≠ some l) :
    pass1 (pre ++ e :: post) l = some (countInstr pre) ∧
    (mnemOf e = none → ∀ mid e2 rest2, post = mid ++ e2 :: rest2 →
      (∀ x ∈ mid, mnemOf x = none) →
      countInstr (pre ++ e :: mid) = countInstr pre) := by
  have hle : labelOf e = some l := by
    simp only [labelOf, h1]
    rw [if_neg h0]
  refine ⟨pass1_lookup pre e post l hle h2, ?_⟩
  intro hm mid e2 rest2 hpost hmid
  rw [countInstr_append]
  have hz : countInstr (e :: mid) = 0 := by
    apply countInstr_all_none
    intro x hx
    rcases List.mem_cons.mp hx with hx | hx
    · rw [hx]
      exact hm
    · exact hmid x hx
  rw [hz]
  omega

/-- Witness for C2 at a concrete input: a label on a mnemonic-less line
after one instruction is bound to address 1, the address of the next
instruction-bearing line. -/
theorem C2_pass1_addresses_wit :
    pass1 [⟨0, none, some "nop", []⟩, ⟨1, some "K", none, []⟩,
      ⟨2, none, some "nop", []⟩] "K" = some 1 ∧
    (mnemOf ⟨1, some "K", none, []⟩ = none →
      ∀ mid e2 rest2, [(⟨2, none, some "nop", []⟩ : Entry)] = mid ++ e2 :: rest2 →
      (∀ x ∈ mid, mnemOf x = none) →
      countInstr ([⟨0, none, some "nop", []⟩] ++ ⟨1, some "K", none, []⟩ :: mid) =
        countInstr [⟨0, none, some "nop", []⟩]) :=
  C2_pass1_addresses [⟨0, none, some "nop", []⟩] [⟨2, none, some "nop", []⟩]
    ⟨1, some "K", none, []⟩ "K" (by decide) rfl (by decide)

/-- Counterexample to claim C3 as stated: a branch instruction with no
operand makes Pass 2 evaluate `operands[0]` on an empty list, raising an
exception — the run aborts and the entry produces no result (no word, no
null word, no diagnostic), instead of one result per entry. -/
theorem C3_cex : assemble [⟨0, none, some "b", []⟩] = Except.error () := rfl

/-- Claim C3 (amended: restricted to entries whose operand lists are long
enough for their mnemonic class, since an entry with too few operands
raises and aborts the pass): Pass 2 produces exactly one result per parsed
entry — word, null word, or diagnostic — and the result of the i-th entry
is computed at address `countInstr (entries.take i)`, the address Pass 1
assigned to it (the counter advances by exactly one on every
mnemonic-bearing entry, including the ones that fail to encode). -/
theorem C3_results (lm : String → Option Nat) (entries : List Entry)
    (h : ∀ e ∈ entries, opsSufficient e = true) :
    ∃ out, pass2 lm entries 0 = Except.ok out ∧
      out.length = entries.length ∧
      ∀ i e, entries.get? i = some e →
        out.get? i =
          some (resOf e (stepOf lm (countInstr (entries.take i)) e)) := by
  obtain ⟨out, ho, hlen, hidx⟩ := pass2_spec lm entries 0 h
  refine ⟨out, ho, hlen, ?_⟩
  intro i e hi
  have hx := hidx i e hi
  simpa using hx

/-- Witness for C3 at a concrete input: a two-entry program (one
instruction with an unknown-mnemonic diagnostic, one label-only line)
yields one result per entry. -/
theorem C3_results_wit :
    ∃ out, pass2 (fun _ => none)
        [⟨0, none, some "qqq", ["r1"]⟩, ⟨1, some "y", none, []⟩] 0 =
        Except.ok out ∧
      out.length =
        ([⟨0, none, some "qqq", ["r1"]⟩, ⟨1, some "y", none, []⟩] :
          List Entry).length ∧
      ∀ i e, ([⟨0, none, some "qqq", ["r1"]⟩,
          ⟨1, some "y", none, []⟩] : List Entry).get? i = some e →
        out.get? i = some (resOf e (stepOf (fun _ => none)
          (countInstr (([⟨0, none, some "qqq", ["r1"]⟩,
            ⟨1, some "y", none, []⟩] : List Entry).take i)) e)) :=
  C3_results (fun _ => none)
    [⟨0, none, some "qqq", ["r1"]⟩, ⟨1, some "y", none, []⟩] (by decide)

/-- Counterexample to claim C4 as stated: `mov r0, 65536` generates a
33-bit string; the code prints an error but then appends a 32-bit all-zero
placeholder word for that line to the output — the claim says no word may
appear for such a line. -/
theorem C4_cex : assemble [⟨0, none, some "mov", ["r0", "65536"]⟩] =
    Except.ok [Res.word 0 (List.replicate 32 '0')] := rfl

/-- Claim C4 (amended: a bit string whose length is not 32 is reported and
replaced by a 32-bit all-zero placeholder word that does appear in the
output stream for that line, rather than being suppressed): every word in
the Pass 2 output is exactly 32 bits wide. -/
theorem C4_word_width (lm : String → Option Nat) (entries : List Entry)
    (addr : Nat) (out : List Res) (h : pass2 lm entries addr = Except.ok out)
    (n : Nat) (w : List Char) (hm : Res.word n w ∈ out) : w.length = 32 :=
  pass2_word_len lm entries addr out h n w hm

/-- Witness for C4 at a concrete input: the word emitted for `nop` is 32
bits wide. -/
theorem C4_word_width_wit :
    ("01101".data ++ List.replicate 27 '0').length = 32 :=
  C4_word_width (fun _ => none) [⟨0, none, some "nop", []⟩] 0
    [Res.word 0 ("01101".data ++ List.replicate 27 '0')] rfl 0
    ("01101".data ++ List.replicate 27 '0') (List.mem_singleton.mpr rfl)

/-- Counterexample to claim C5 as stated: with the same label `L` on two
instruction lines, Pass 1 resolves `L` to address 1 — the binding of the
last occurrence, not the first (and the pass has no diagnostic channel at
all: re-binding is a plain dict overwrite). -/
theorem C5_cex :
    pass1 [⟨0, some "L", some "nop", []⟩, ⟨1, some "L", some "nop", []⟩] "L" =
      some 1 ∧ (1 : Nat) ≠ 0 :=
  ⟨rfl, by decide⟩

/-- Claim C5 (amended: no diagnostic is emitted and the LAST binding wins):
when a label re-occurs, Pass 1 silently rebinds it, and every branch
referencing it resolves to the address recorded at the label's last
occurrence. -/
theorem C5_dup_label (pre post : List Entry) (e : Entry) (l : String)
    (h0 : l ≠ "") (h1 : e.label = some l)
    (h2 : ∀ x ∈ post, labelOf x ≠ some l)
    (hdup : ∃ x ∈ pre, labelOf x = some l) (addr : Nat) :
    pass1 (pre ++ e :: post) l = some (countInstr pre) ∧
    encodeCore (pass1 (pre ++ e :: post)) addr "b" [l] =
      CoreRes.str ("10010".data ++
        to_binary ((countInstr pre : Int) - ((addr : Int) + 1)) 27 true) := by
  have hle : labelOf e = some l := by
    simp only [labelOf, h1]
    rw [if_neg h0]
  have hp := pass1_lookup pre e post l hle h2
  refine ⟨hp, ?_⟩
  have hred : encodeCore (pass1 (pre ++ e :: post)) addr "b" [l] =
      match pass1 (pre ++ e :: post) l with
      | none => CoreRes.diag
      | some target =>
        CoreRes.str ("10010".data ++
          to_binary ((target : Int) - ((addr : Int) + 1)) 27 true) := rfl
  rw [hred, hp]

/-- Witness for C5 at a concrete input: label `M` bound on two lines; the
lookup yields the last occurrence's address 1 and a branch encodes against
it. -/
theorem C5_dup_label_wit :
    pass1 ([⟨0, some "M", some "nop", []⟩] ++ ⟨1, some "M", some "nop", []⟩ :: [])
      "M" = some 1 ∧
    encodeCore (pass1 ([⟨0, some "M", some "nop", []⟩] ++
        ⟨1, some "M", some "nop", []⟩ :: [])) 0 "b" ["M"] =
      CoreRes.str ("10010".data ++
        to_binary (((1 : Nat) : Int) - (((0 : Nat) : Int) + 1)) 27 true) :=
  C5_dup_label [⟨0, some "M", some "nop", []⟩] [] ⟨1, some "M", some "nop", []⟩
    "M" (by decide) rfl (by decide) (by decide) 0

/-- Claim C6: for every immediate/register-class instruction that encodes
to a word, if the word is immediate-format (I-bit '1') the 2-bit modifier
field at bit positions 14-15 is '01' when the mnemonic ends in 'u', '10'
when it ends in 'h' and '00' otherwise; if the word is register-format
(I-bit '0') the trailing 14 bits are all zeros. -/
theorem C6_modifier_bits (lm : String → Option Nat) (addr : Nat) (m : String)
    (ops : List String) (w : List Char) (hc : immRegClass m = true)
    (he : encodeCore lm addr m ops = CoreRes.str w) :
    (w.get? 5 = some '1' → (w.drop 14).take 2 =
      (if lastCh m = 'u' then "01".data
       else if lastCh m = 'h' then "10".data else "00".data)) ∧
    (w.get? 5 = some '0' → w.drop 18 = List.replicate 14 '0') :=
  encodeCore_str_bits lm addr m ops w hc he

/-- Witness for C6 at a concrete input: `addu r1, r1, 7` is
immediate-format and carries modifier '01'. -/
theorem C6_modifier_bits_wit :
    ("00000100010001010000000000000111".data.get? 5 = some '1' →
      ("00000100010001010000000000000111".data.drop 14).take 2 =
        (if lastCh "addu" = 'u' then "01".data
         else if lastCh "addu" = 'h' then "10".data else "00".data)) ∧
    ("00000100010001010000000000000111".data.get? 5 = some '0' →
      "00000100010001010000000000000111".data.drop 18 =
        List.replicate 14 '0') :=
  C6_modifier_bits (fun _ => none) 0 "addu" ["r1", "r1", "7"]
    "00000100010001010000000000000111".data rfl rfl

/-- Counterexample to claim C7 as stated: `to_binary 8 3` (unsigned)
returns the 4-character string "1000" — it neither raises a range error nor
returns a string of the requested width 3 (zfill pads but never
truncates). -/
theorem C7_cex :
    to_binary 8 3 false = "1000".data ∧ ("1000".data).length ≠ 3 :=
  ⟨rfl, by decide⟩

/-- Claim C7 (amended: no range check exists — out-of-domain values are
neither rejected nor truncated, and can yield a string longer than the
requested width; within the stated domains the claim holds): for width at
least 1, unsigned mode on `0 <= v < 2^w` returns the `w`-bit binary of `v`,
and signed mode on `-2^(w-1) <= v < 2^(w-1)` returns the `w`-bit
two's-complement of `v`, negative values being converted via
`(1 << w) + v` before binary conversion. -/
theorem C7_to_binary (v : Int) (w : Nat) (hw : 1 ≤ w) :
    (0 ≤ v → v < 2 ^ w →
      (to_binary v w false).length = w ∧
      (binVal (to_binary v w false) : Int) = v) ∧
    (-(2 ^ (w - 1)) ≤ v → v < 2 ^ (w - 1) →
      (to_binary v w true).length = w ∧
      decodeTC (to_binary v w true) = v ∧
      (v < 0 → to_binary v w true = to_binary (2 ^ w + v) w false)) := by
  constructor
  · intro h2 h3
    obtain ⟨hl, hb⟩ := to_binary_unsigned v w hw h2 h3
    refine ⟨hl, ?_⟩
    rw [hb]
    exact Int.toNat_of_nonneg h2
  · intro h2 h3
    obtain ⟨hl, hd⟩ := to_binary_signed v w hw h2 h3
    refine ⟨hl, hd, ?_⟩
    intro hneg
    unfold to_binary
    rw [if_pos ⟨rfl, hneg⟩, if_neg (by simp)]

/-- Witness for C7 at a concrete input: width 4, value -3. -/
theorem C7_to_binary_wit :
    (0 ≤ (-3 : Int) → (-3 : Int) < 2 ^ 4 →
      (to_binary (-3) 4 false).length = 4 ∧
      (binVal (to_binary (-3) 4 false) : Int) = (-3 : Int)) ∧
    (-(2 ^ (4 - 1)) ≤ (-3 : Int) → (-3 : Int) < 2 ^ (4 - 1) →
      (to_binary (-3) 4 true).length = 4 ∧
      decodeTC (to_binary (-3) 4 true) = (-3 : Int) ∧
      ((-3 : Int) < 0 → to_binary (-3) 4 true = to_binary (2 ^ 4 + (-3)) 4 false)) :=
  C7_to_binary (-3) 4 (by norm_num)

/-- Claim C8: at any address and with any symbol table, `cmp r1, 5`
encodes to opcode 00101, I=1, rd 0000 (zero-filled), rs1 0001, modifier 00
and the 16-bit two's-complement immediate 0000000000000101. -/
theorem C8_cmp_encoding (lm : String → Option Nat) (addr : Nat) :
    encodeCore lm addr "cmp" ["r1", "5"] =
      CoreRes.str ("00101".data ++ "1".data ++ "0000".data ++ "0001".data ++
        "00".data ++ "0000000000000101".data) := rfl

/-- Counterexample to claim C9 as stated: `add` with no operands makes the
encoder evaluate `operands[0]` on an empty list — assembly raises and does
NOT run to completion. -/
theorem C9_cex : assemble [⟨0, none, some "add", []⟩] = Except.error () := rfl

/-- Claim C9 (amended: restricted to entries carrying the operands their
mnemonic class indexes, since missing operands — and a bare '-' offset in a
ld/st memory operand — raise and abort the run): assembly completes, and
each of the listed failures (unknown mnemonic, undefined label, malformed
memory operand) is a per-line diagnostic with no word for that line, after
which processing continues at the next address. -/
theorem C9_no_fatal (lm : String → Option Nat) (entries : List Entry)
    (addr : Nat) (h : ∀ e ∈ entries, opsSufficient e = true) :
    (∃ out, pass2 lm entries addr = Except.ok out) ∧
    (∀ n m ops, m ≠ "" → opLookup m = none →
      stepOf lm addr ⟨n, none, some m, ops⟩ = StepRes.diag) ∧
    (∀ n t, lm t = none →
      stepOf lm addr ⟨n, none, some "b", [t]⟩ = StepRes.diag) ∧
    (∀ n r s, memMatch s.data = none →
      stepOf lm addr ⟨n, none, some "ld", [r, s]⟩ = StepRes.diag) ∧
    (∀ e rest, stepOf lm addr e = StepRes.diag →
      pass2 lm (e :: rest) addr =
        (pass2 lm rest (addr + 1)).map (fun t => Res.diag e.lineNum :: t)) := by
  refine ⟨?_, ?_, ?_, ?_, ?_⟩
  · obtain ⟨out, h1, _, _⟩ := pass2_spec lm entries addr h
    exact ⟨out, h1⟩
  · intro n m ops hne hop
    have hcd : encodeCore lm addr m ops = CoreRes.diag := by
      unfold encodeCore
      simp only [hop]
    have hmn : mnemOf ⟨n, none, some m, ops⟩ = some m := by
      simp only [mnemOf]
      rw [if_neg hne]
    unfold stepOf
    simp only [hmn, hcd]
  · intro n t hlm
    have hcd : encodeCore lm addr "b" [t] = CoreRes.diag := by
      have hred : encodeCore lm addr "b" [t] =
          match lm t with
          | none => CoreRes.diag
          | some target =>
            CoreRes.str ("10010".data ++
              to_binary ((target : Int) - ((addr : Int) + 1)) 27 true) := rfl
      rw [hred, hlm]
    unfold stepOf
    simp only [show mnemOf ⟨n, none, some "b", [t]⟩ = some "b" from rfl, hcd]
  · intro n r s hmm
    have hd : innerDispatch "ld" [r, s] = InnerRes.diag := by
      have hred : innerDispatch "ld" [r, s] =
          match memMatch s.data with
          | none => InnerRes.diag
          | some p =>
            if p.1 = [] then InnerRes.imm (regGet r) (regGet (String.mk p.2)) 0
            else if p.1 = ['-'] then InnerRes.crash
            else InnerRes.imm (regGet r) (regGet (String.mk p.2)) (pyIntL p.1) :=
        rfl
      rw [hred, hmm]
    have hcd : encodeCore lm addr "ld" [r, s] = CoreRes.diag := by
      have hred2 : encodeCore lm addr "ld" [r, s] =
          encodeImmReg ("01110".data) "ld" [r, s] := rfl
      rw [hred2]
      unfold encodeImmReg
      simp only [hd]
    unfold stepOf
    simp only [show mnemOf ⟨n, none, some "ld", [r, s]⟩ = some "ld" from rfl, hcd]
  · intro e rest hstep
    simp only [pass2, hstep]

/-- Witness for C9 at a concrete input: a one-entry program with an
unknown mnemonic completes, and the per-line diagnostic behaviors hold at
address 0 under the empty symbol table. -/
theorem C9_no_fatal_wit :
    (∃ out, pass2 (fun _ => none) [⟨0, none, some "qq", []⟩] 0 =
      Except.ok out) ∧
    (∀ n m ops, m ≠ "" → opLookup m = none →
      stepOf (fun _ => none) 0 ⟨n, none, some m, ops⟩ = StepRes.diag) ∧
    (∀ n t, (fun (_ : String) => (none : Option Nat)) t = none →
      stepOf (fun _ => none) 0 ⟨n, none, some "b", [t]⟩ = StepRes.diag) ∧
    (∀ n r s, memMatch s.data = none →
      stepOf (fun _ => none) 0 ⟨n, none, some "ld", [r, s]⟩ = StepRes.diag) ∧
    (∀ e rest, stepOf (fun _ => none) 0 e = StepRes.diag →
      pass2 (fun _ => none) (e :: rest) 0 =
        (pass2 (fun _ => none) rest (0 + 1)).map
          (fun t => Res.diag e.lineNum :: t)) :=
  C9_no_fatal (fun _ => none) [⟨0, none, some "qq", []⟩] 0 (by decide)

theorem scanBracket_closed (cs : List Char) (h1 : ']' ∉ cs) (h2 : '\n' ∉ cs) :
    scanBracket (cs ++ [']']) = some cs := by
  induction cs with
  | nil => rfl
  | cons c cs ih =>
    have hc1 : ¬ c = ']' := by
      intro hc
      subst hc
      exact h1 (List.mem_cons_self _ _)
    have hc2 : ¬ c = '\n' := by
      intro hc
      subst hc
      exact h2 (List.mem_cons_self _ _)
    have h1r : ']' ∉ cs := fun hx => h1 (List.mem_cons_of_mem _ hx)
    have h2r : '\n' ∉ cs := fun hx => h2 (List.mem_cons_of_mem _ hx)
    simp only [List.cons_append, scanBracket, List.append_eq]
    rw [if_neg hc1, if_neg hc2, ih h1r h2r]
    rfl

theorem memMatch_closed (t : List Char) (h1 : ']' ∉ t) (h2 : '\n' ∉ t) :
    memMatch ('4' :: '[' :: (t ++ [']'])) = some (['4'], t) := by
  have hred : memMatch ('4' :: '[' :: (t ++ [']'])) =
      (scanBracket (t ++ [']'])).map (fun inner => (['4'], inner)) := rfl
  rw [hred, scanBracket_closed t h1 h2]
  rfl

/-- Claim C10: a token that is neither a known register name nor an
immediate-shaped literal is silently encoded as register code 0000 (r0)
with no diagnostic, in every register position: rd/rs1/rs2 of arithmetic,
rs1/rs2 of cmp, rd/rs2 of mov, and the rd and base (rs1) fields of ld. -/
theorem C10_unknown_register (lm : String → Option Nat) (addr : Nat)
    (t : String) (h1 : regLookup t = none) (h2 : isImmTok t = false)
    (h3 : ']' ∉ t.data) (h4 : '\n' ∉ t.data) :
    encodeCore lm addr "add" [t, t, t] =
      CoreRes.str ("00000".data ++ regForm "0000".data "0000".data "0000".data) ∧
    encodeCore lm addr "cmp" [t, t] =
      CoreRes.str ("00101".data ++ regForm "0000".data "0000".data "0000".data) ∧
    encodeCore lm addr "mov" [t, t] =
      CoreRes.str ("01001".data ++ regForm "0000".data "0000".data "0000".data) ∧
    encodeCore lm addr "ld" [t, String.mk ('4' :: '[' :: (t.data ++ [']']))] =
      CoreRes.str ("01110".data ++ '1' :: ("0000".data ++ ("0000".data ++
        immField "ld" (to_binary 4 16 true)))) := by
  have hrg : regGet t = "0000".data := by
    unfold regGet
    rw [h1]
    rfl
  have him : ¬ isImmTok t = true := by simp [h2]
  refine ⟨?_, ?_, ?_, ?_⟩
  · have hd : innerDispatch "add" [t, t, t] =
        InnerRes.done (regForm (regGet t) (regGet t) (regGet t)) := by
      have hred : innerDispatch "add" [t, t, t] =
          (if isImmTok t = true then
            InnerRes.imm (regGet t) (regGet t) (pyInt t)
          else InnerRes.done (regForm (regGet t) (regGet t) (regGet t))) := rfl
      rw [hred, if_neg him]
    have hred2 : encodeCore lm addr "add" [t, t, t] =
        encodeImmReg ("00000".data) "add" [t, t, t] := rfl
    rw [hred2]
    unfold encodeImmReg
    simp only [hd]
    rw [hrg]
  · have hd : innerDispatch "cmp" [t, t] =
        InnerRes.done (regForm z4 (regGet t) (regGet t)) := by
      have hred : innerDispatch "cmp" [t, t] =
          (if isImmTok t = true then InnerRes.imm z4 (regGet t) (pyInt t)
           else InnerRes.done (regForm z4 (regGet t) (regGet t))) := rfl
      rw [hred, if_neg him]
    have hred2 : encodeCore lm addr "cmp" [t, t] =
        encodeImmReg ("00101".data) "cmp" [t, t] := rfl
    rw [hred2]
    unfold encodeImmReg
    simp only [hd]
    rw [hrg]
    rfl
  · have hd : innerDispatch "mov" [t, t] =
        InnerRes.done (regForm (regGet t) z4 (regGet t)) := by
      have hred : innerDispatch "mov" [t, t] =
          (if isImmTok t = true then InnerRes.imm (regGet t) z4 (pyInt t)
           else InnerRes.done (regForm (regGet t) z4 (regGet t))) := rfl
      rw [hred, if_neg him]
    have hred2 : encodeCore lm addr "mov" [t, t] =
        encodeImmReg ("01001".data) "mov" [t, t] := rfl
    rw [hred2]
    unfold encodeImmReg
    simp only [hd]
    rw [hrg]
    rfl
  · have hs : (String.mk ('4' :: '[' :: (t.data ++ [']']))).data =
        '4' :: '[' :: (t.data ++ [']']) := rfl
    have hd : innerDispatch "ld" [t, String.mk ('4' :: '[' :: (t.data ++ [']']))] =
        InnerRes.imm (regGet t) (regGet (String.mk t.data)) (pyIntL ['4']) := by
      have hred : innerDispatch "ld"
          [t, String.mk ('4' :: '[' :: (t.data ++ [']']))] =
          match memMatch ('4' :: '[' :: (t.data ++ [']'])) with
          | none => InnerRes.diag
          | some p =>
            if p.1 = [] then InnerRes.imm (regGet t) (regGet (String.mk p.2)) 0
            else if p.1 = ['-'] then InnerRes.crash
            else InnerRes.imm (regGet t) (regGet (String.mk p.2)) (pyIntL p.1) :=
        rfl
      rw [hred, memMatch_closed t.data h3 h4]
      rfl
    have hmk : String.mk t.data = t := rfl
    have hred2 : encodeCore lm addr "ld"
        [t, String.mk ('4' :: '[' :: (t.data ++ [']']))] =
        encodeImmReg ("01110".data) "ld"
          [t, String.mk ('4' :: '[' :: (t.data ++ [']']))] := rfl
    rw [hred2]
    unfold encodeImmReg
    simp only [hd, hmk, hrg]
    rfl

/-- Witness for C10 at a concrete input: the unknown token `zz` encodes
as register code 0000 in every register position, with a word produced and
no diagnostic. -/
theorem C10_unknown_register_wit :
    encodeCore (fun _ => none) 0 "add" ["zz", "zz", "zz"] =
      CoreRes.str ("00000".data ++ regForm "0000".data "0000".data "0000".data) ∧
    encodeCore (fun _ => none) 0 "cmp" ["zz", "zz"] =
      CoreRes.str ("00101".data ++ regForm "0000".data "0000".data "0000".data) ∧
    encodeCore (fun _ => none) 0 "mov" ["zz", "zz"] =
      CoreRes.str ("01001".data ++ regForm "0000".data "0000".data "0000".data) ∧
    encodeCore (fun _ => none) 0 "ld"
        ["zz", String.mk ('4' :: '[' :: ("zz".data ++ [']']))] =
      CoreRes.str ("01110".data ++ '1' :: ("0000".data ++ ("0000".data ++
        immField "ld" (to_binary 4 16 true)))) :=
  C10_unknown_register (fun _ => none) 0 "zz" rfl (by decide) (by decide)
    (by decide)
